import Mathlib

/-!
Verification development for the IBDOWNLOAD_PACKAGER document-classification
pipeline (`word_to_pdf.py`, `reorganize_output.py`, `generate_reports.py`).

The Python functions are shallowly embedded as executable Lean definitions:
page texts are `String`s (a document is its list of extracted page texts),
the filesystem snapshot used by the conflict resolver is a `List String` of
occupied paths, dictionaries are association lists with Python-dict update
semantics, and the external language-detection library is an oracle
parameter `String → Option String` (`none` models a `LangDetectException`).
Character-level operations (`strip`, `lower`, `title`, `\b`, `\w`, `\d`)
model Python string/regex semantics on the ASCII range.
-/

namespace IBD

/-! ## Character and string primitives -/

/-- Whitespace stripped by Python `str.strip()` / split by `str.split()`
(ASCII range: space, tab, newline, carriage return, vertical tab, form feed). -/
def isSpaceCh (c : Char) : Bool :=
  c = ' ' || c = '\t' || c = '\n' || c = '\r' || c = Char.ofNat 11 || c = Char.ofNat 12

/-- Remove leading and trailing whitespace from a char list (Python `str.strip()`). -/
def stripChars (l : List Char) : List Char :=
  ((l.dropWhile isSpaceCh).reverse.dropWhile isSpaceCh).reverse

/-- Python `str.strip()`. -/
def strip (s : String) : String := ⟨stripChars s.data⟩

/-- Python `str.lower()` (ASCII model). -/
def lowerStr (s : String) : String := ⟨s.data.map Char.toLower⟩

/-- Python `str.replace("_", " ")`: both arguments are single characters, so the
replacement is a character map. -/
def underscoreToSpace (s : String) : String :=
  ⟨s.data.map (fun c => if c = '_' then ' ' else c)⟩

/-- Python `str.replace(" ", "_")`. -/
def spaceToUnderscore (s : String) : String :=
  ⟨s.data.map (fun c => if c = ' ' then '_' else c)⟩

/-- Boolean prefix test on char lists (Python `str.startswith`). -/
def prefixOf : List Char → List Char → Bool
  | [], _ => true
  | _ :: _, [] => false
  | p :: ps, t :: ts => p = t && prefixOf ps ts

/-- Python `filename.startswith(pre)`. -/
def startsWithStr (s pre : String) : Bool := prefixOf pre.data s.data

/-! ## Language / scan classifier (`word_to_pdf.detect_language`) -/

/-- Text-accumulation loop of `detect_language`: concatenate the extracted text
of the first `pages_to_check = min(len(pages), 3)` pages, skipping pages with
empty text and stopping early once more than 1000 characters are gathered. -/
def accumTextAux : List String → String → String
  | [], acc => acc
  | t :: ts, acc =>
    if t = "" then accumTextAux ts acc
    else
      let acc2 := acc ++ t
      if acc2.length > 1000 then acc2 else accumTextAux ts acc2

/-- Text gathered by `detect_language` from a document's page texts. -/
def accumText (pages : List String) : String := accumTextAux (pages.take 3) ""

/-- Embedding of `word_to_pdf.detect_language`. `pages` is the list of
per-page extracted texts (so `len(reader.pages) = pages.length`); `d` is the
external `langdetect.detect` oracle, `none` modelling `LangDetectException`. -/
def detect_language (d : String → Option String) (pages : List String) : String :=
  let allText := accumText pages
  if (strip allText).length < 50 ∧ pages.length > 0 then "OCR"
  else if allText.length > 100 then
    match d allText with
    | some lang => if lang = "en" then "EN" else "NON"
    | none => "UNK"
  else if allText.length > 0 then "UNK"
  else "OCR"

/-! ## Identifier extractor (`word_to_pdf.extract_project_id` and
`word_to_pdf.extract_project_id_from_filename`) -/

/-- A character admitted in the 6-character suffix of the content pattern
`P[0-9O]{6}`: a digit or the uppercase letter O (OCR misread of 0). -/
def isPidCh (c : Char) : Bool := c.isDigit || c = 'O'

/-- Leftmost match of the regex `P[0-9O]{6}` in a char list, as returned by
`re.findall(pattern, text)[0]` (7 characters including the leading P). -/
def findPidMatch : List Char → Option (List Char)
  | [] => none
  | c :: rest =>
    if c = 'P' && (rest.take 6).length = 6 && (rest.take 6).all isPidCh then
      some (c :: rest.take 6)
    else findPidMatch rest

/-- Correction applied to a raw content match:
`'P' + pid[1:].replace('O', '0')`. -/
def fixO (c : Char) : Char := if c = 'O' then '0' else c

/-- Embedding of `extract_project_id`: search the first
`min(len(pages), max_pages = 10)` page texts for the pattern `P[0-9O]{6}`,
returning the corrected first match of the first page that has one. -/
def extractPidPages : List String → Option String
  | [] => none
  | p :: ps =>
    match findPidMatch p.data with
    | some m => some ⟨'P' :: (m.drop 1).map fixO⟩
    | none => extractPidPages ps

/-- `extract_project_id(pdf_path, max_pages=10)` over the document's page texts. -/
def extract_project_id (pages : List String) : Option String :=
  extractPidPages (pages.take 10)

/-- Leftmost match of the filename regex `P\d{6}[-_]`: the stricter pattern of
`extract_project_id_from_filename` (no O substitution, trailing `-` or `_`),
returned without the trailing separator (`matches[0][:-1]`). -/
def findPidFilename : List Char → Option (List Char)
  | [] => none
  | c :: rest =>
    if c = 'P' && (rest.take 6).length = 6 && (rest.take 6).all Char.isDigit
        && (match rest.drop 6 with
            | d :: _ => d = '-' || d = '_'
            | [] => false) then
      some (c :: rest.take 6)
    else findPidFilename rest

/-- Embedding of `extract_project_id_from_filename`. -/
def extract_project_id_from_filename (filename : String) : Option String :=
  (findPidFilename filename.data).map (fun m => ⟨m⟩)

/-! ## Naming and conflict resolver (`word_to_pdf.get_unique_filename`)

The filesystem visible to `os.path.exists` is modelled as the list `fs` of
occupied paths; the resolver works on a file name within one directory
(the Python code splits off the fixed directory component and re-joins it
unchanged around the `{name}_{counter:02d}{ext}` probe). -/

/-- Decimal digit as a character. -/
def digitCh (d : Nat) : Char := Char.ofNat (48 + d)

/-- Decimal representation of a natural number. -/
def decRepr (n : Nat) : String :=
  if n = 0 then "0" else ⟨((Nat.digits 10 n).map digitCh).reverse⟩

/-- Python `f"{counter:02d}"`: decimal, zero-padded to at least two digits. -/
def pad2 (n : Nat) : String := if n < 10 then "0" ++ decRepr n else decRepr n

/-- Candidate file name `f"{name}_{counter:02d}{ext}"` probed by the loop. -/
def mkCand (name ext : String) (c : Nat) : String := name ++ "_" ++ pad2 c ++ ext

/-- Index of the last `.` in a char list (`str.rfind('.')`). -/
def lastDotIdx (cs : List Char) : Option Nat :=
  match cs.reverse.findIdx? (fun c => c = '.') with
  | some j => some (cs.length - 1 - j)
  | none => none

/-- Embedding of `os.path.splitext` on a separator-free file name: split at the
last dot, provided some character before it is not a dot (so dot-only leading
runs such as `.bashrc` get no extension). -/
def splitExt (s : String) : String × String :=
  let cs := s.data
  match lastDotIdx cs with
  | none => (s, "")
  | some i =>
    if (cs.take i).any (fun c => c ≠ '.') then (⟨cs.take i⟩, ⟨cs.drop i⟩)
    else (s, "")

/-- The `counter = 1; while True: ...` probe loop of `get_unique_filename`,
run with explicit fuel (the loop always terminates against a finite
filesystem; `findFree_spec` below shows fuel `fs.length + 1` suffices). -/
def findFree (fs : List String) (name ext : String) : Nat → Nat → Nat
  | 0, c => c
  | fuel + 1, c => if mkCand name ext c ∈ fs then findFree fs name ext fuel (c + 1) else c

/-- Embedding of `get_unique_filename`. -/
def get_unique_filename (fs : List String) (base : String) : String :=
  if base ∈ fs then
    let ne := splitExt base
    mkCand ne.1 ne.2 (findFree fs ne.1 ne.2 (fs.length + 1) 1)
  else base

/-! ## Country matcher (`word_to_pdf.extract_country_from_pdf`) -/

/-- Regex word character `\w` (ASCII model): alphanumeric or underscore. -/
def isWordCh (c : Char) : Bool := c.isAlphanum || c = '_'

/-- Case-insensitive literal prefix test (the compiled patterns carry
`re.IGNORECASE`; `re.escape` makes the name a literal). -/
def ciStarts : List Char → List Char → Bool
  | [], _ => true
  | _ :: _, [] => false
  | p :: ps, t :: ts => p.toLower = t.toLower && ciStarts ps ts

/-- Whether position `i` of the text holds a word character (out of range
counts as non-word). -/
def wordAt (cs : List Char) (i : Nat) : Bool :=
  match cs.drop i with
  | c :: _ => isWordCh c
  | [] => false

/-- Regex `\b` at position `i`: the word-ness of the text changes between
positions `i - 1` and `i` (the outside of the string is non-word). -/
def boundaryAt (cs : List Char) (i : Nat) : Bool :=
  match i with
  | 0 => wordAt cs 0
  | j + 1 => wordAt cs j != wordAt cs (j + 1)

/-- Match of the pattern `\b{name}\b` (case-insensitive) at text position `i`. -/
def wordMatchAt (txt pat : List Char) (i : Nat) : Bool :=
  ciStarts pat (txt.drop i) && boundaryAt txt i && boundaryAt txt (i + pat.length)

/-- `pattern.search(text)` truthiness for the compiled `\b{name}\b` pattern. -/
def wordSearch (pat text : String) : Bool :=
  (List.range (text.data.length + 1)).any (fun i => wordMatchAt text.data pat.data i)

/-- Association-list lookup (`dict.get`). -/
def alookup {β : Type} : List (String × β) → String → Option β
  | [], _ => none
  | (k2, v) :: rest, k => if k2 = k then some v else alookup rest k

/-- Python-dict assignment `m[k] = v`: replace in place if the key exists
(keeping its position), else append. -/
def upsert {β : Type} (m : List (String × β)) (k : String) (v : β) : List (String × β) :=
  if m.any (fun p => p.1 = k) then m.map (fun p => if p.1 = k then (k, v) else p)
  else m ++ [(k, v)]

/-- Dict-key insertion for `all_country_patterns[name] = ...`: the stored value
is always the pattern compiled from the key itself, so re-assigning an existing
key leaves the ordered key list unchanged. -/
def patInsert (pats : List String) (p : String) : List String :=
  if p ∈ pats then pats else pats ++ [p]

/-- Sort candidate names by length, longest first
(`sorted(country_names, key=len, reverse=True)`). -/
def sortLenDesc (l : List String) : List String :=
  List.insertionSort (fun a b : String => b.length ≤ a.length) l

/-- First loop of `extract_country_from_pdf`: register each standard country
name and, when it differs, its underscore-to-space variant (recording
`variant_to_standard[space.lower()] = country`). -/
def buildCountryPats : List String → List String → List (String × String) →
    List String × List (String × String)
  | [], pats, vts => (pats, vts)
  | c :: cs, pats, vts =>
    let pats1 := patInsert pats c
    let sp := underscoreToSpace c
    if sp ≠ c then buildCountryPats cs (patInsert pats1 sp) (upsert vts (lowerStr sp) c)
    else buildCountryPats cs pats1 vts

/-- Second loop: add each supplied variant whose lowercase form is not yet a
key of `variant_to_standard`. -/
def addVariantPats : List (String × String) → List String → List (String × String) →
    List String × List (String × String)
  | [], pats, vts => (pats, vts)
  | (variant, std) :: rest, pats, vts =>
    if vts.any (fun p => p.1 = lowerStr variant) then addVariantPats rest pats vts
    else addVariantPats rest (patInsert pats variant) (vts ++ [(lowerStr variant, std)])

/-- Page scan of `extract_country_from_pdf`: pages with empty text are
skipped; on the first page where some pattern (in registration order) matches,
the matching name is resolved through `variant_to_standard` and returned. -/
def searchPages : List String → List String → List (String × String) → Option String
  | [], _, _ => none
  | page :: rest, pats, vts =>
    if page = "" then searchPages rest pats vts
    else
      match pats.find? (fun p => wordSearch p page) with
      | some p => some ((alookup vts (lowerStr p)).getD p)
      | none => searchPages rest pats vts

/-- Embedding of `extract_country_from_pdf` (with the default
`max_pages = 10`, used by both call sites). -/
def extract_country_from_pdf (pages : List String) (names : List String)
    (variants : List (String × String)) : Option String :=
  if names = [] then none
  else
    let bp := buildCountryPats (sortLenDesc names) [] []
    let pv := addVariantPats variants bp.1 bp.2
    searchPages (pages.take 10) pv.1 pv.2

/-- Embedding of `extract_unique_countries`: the distinct mapping values,
excluding any case-insensitive match of "world"; the Python `set` is modelled
with first-occurrence order. -/
def extract_unique_countries (mapping : List (String × String)) : List String :=
  mapping.foldl
    (fun acc p =>
      if strip (lowerStr p.2) ≠ "world" then
        (if p.2 ∈ acc then acc else acc ++ [p.2])
      else acc) []

/-! ## Classification pipeline (`process_file` / `copy_existing_pdfs`) -/

/-- Identifier search order of the pipeline: content first, then filename. -/
def combinedPid (pages : List String) (filename : String) : Option String :=
  match extract_project_id pages with
  | some pid => some pid
  | none => extract_project_id_from_filename filename

/-- Base output name chosen by the classification pipeline for one document
(the priority cascade shared by `process_file` and `copy_existing_pdfs`,
before the per-target collision-suffix probing): identifier naming, then the
OCR marker, then country text match, then the unknown fallback. -/
def classify_name (d : String → Option String) (pages : List String)
    (filename : String) (mapping : List (String × String))
    (variants : List (String × String)) : String :=
  match combinedPid pages filename with
  | some pid =>
    let lang := detect_language d pages
    let country := spaceToUnderscore ((alookup mapping pid).getD "")
    if country ≠ "" then pid ++ "_" ++ country ++ "_" ++ lang ++ ".pdf"
    else pid ++ "_" ++ lang ++ ".pdf"
  | none =>
    let lang := detect_language d pages
    if lang = "OCR" then "SCAN_OCR_DOCUMENT.pdf"
    else
      match (if mapping ≠ [] then
               extract_country_from_pdf pages (extract_unique_countries mapping) variants
             else none) with
      | some c => "COUNTRY_" ++ c ++ "_" ++ lang ++ ".pdf"
      | none => "UNKNOWN_" ++ lang ++ ".pdf"

/-! ## Reorganizer bucketing pass (`reorganize_output.reorganize_output_folder`) -/

/-- The three top-level category folders. -/
inductive Bucket
  | country
  | unknown
  | failed
deriving DecidableEq

/-- Match of the anchored regex `^P\d{6}` (`pid_pattern.match(filename)`). -/
def pidStart (f : String) : Bool :=
  match f.data with
  | c :: rest => c = 'P' && (rest.take 6).length = 6 && (rest.take 6).all Char.isDigit
  | [] => false

/-- Target-folder decision of the bucketing pass, from the file name alone. -/
def bucket (f : String) : Bucket :=
  if startsWithStr f "COUNTRY_" || pidStart f then .country
  else if startsWithStr f "UNKNOWN_" then .unknown
  else .failed

/-! ## Reorganizer country pass (`reorganize_output.organize_by_country`) -/

/-- Language-tag alternation `(EN|NON|UNK|OCR)` as a prefix consumer. -/
def langAfter (cs : List Char) : Option (List Char) :=
  if prefixOf "EN".data cs then some (cs.drop 2)
  else if prefixOf "NON".data cs then some (cs.drop 3)
  else if prefixOf "UNK".data cs then some (cs.drop 3)
  else if prefixOf "OCR".data cs then some (cs.drop 3)
  else none

/-- Whether the remainder after the language tag matches
`(?:_[^_]+)?(?:_\d+)?\.pdf$`: nothing, one `_token` (no inner underscore), or
`_token_digits`, followed by `.pdf` at the end. -/
def tailOK (cs : List Char) : Bool :=
  if cs.length ≥ 4 && decide (cs.drop (cs.length - 4) = ".pdf".data) then
    match cs.take (cs.length - 4) with
    | [] => true
    | '_' :: rest =>
      match rest.splitOn '_' with
      | [t] => !t.isEmpty
      | [t, dpart] => !t.isEmpty && !dpart.isEmpty && dpart.all Char.isDigit
      | _ => false
    | _ => false
  else false

/-- Non-greedy group scan for `(.+?)_(EN|NON|UNK|OCR)...`: try each strictly
growing nonempty group (smallest first, as `.+?` does) until the remainder
parses as `_` + language tag + admissible tail. -/
def grpSearch : List Char → List Char → Option String
  | [], _ => none
  | c :: rest, acc =>
    let acc2 := c :: acc
    let ok := match rest with
      | '_' :: r2 =>
        (match langAfter r2 with
         | some r3 => tailOK r3
         | none => false)
      | _ => false
    if ok then some ⟨acc2.reverse⟩ else grpSearch rest acc2

/-- Country extracted from a placed file name by the first pass of
`organize_by_country`: `^P\d{6}_(.+?)_(EN|NON|UNK|OCR)(?:_[^_]+)?(?:_\d+)?\.pdf$`
for names starting with `P`, the `^COUNTRY_...` twin for names starting with
`COUNTRY_`. -/
def parseCountry (f : String) : Option String :=
  let cs := f.data
  match cs with
  | 'P' :: rest =>
    if (rest.take 6).length = 6 && (rest.take 6).all Char.isDigit then
      match rest.drop 6 with
      | '_' :: body => grpSearch body []
      | _ => none
    else none
  | _ => if startsWithStr f "COUNTRY_" then grpSearch (cs.drop 8) [] else none

/-- Python-cased character (ASCII model: letters). -/
def isCasedCh (c : Char) : Bool := c.isAlpha

/-- Python `str.title()`: uppercase a cased character that follows a non-cased
one, lowercase a cased character that follows a cased one. -/
def titleAux : List Char → Bool → List Char
  | [], _ => []
  | c :: rest, prevCased =>
    (if isCasedCh c then (if prevCased then c.toLower else c.toUpper) else c)
      :: titleAux rest (isCasedCh c)

/-- Python `str.split()` with no separator: split on whitespace runs,
discarding empty fields. -/
def splitWsAux : List Char → List Char → List (List Char)
  | [], acc => if acc.isEmpty then [] else [acc.reverse]
  | c :: rest, acc =>
    if isSpaceCh c then
      (if acc.isEmpty then splitWsAux rest [] else acc.reverse :: splitWsAux rest [])
    else splitWsAux rest (c :: acc)

/-- Embedding of `standardize_country_name`: underscores to spaces, collapse
whitespace runs, title-case. -/
def standardize_country_name (s : String) : String :=
  if s = "" then s
  else
    let collapsed := List.intercalate [' '] (splitWsAux (underscoreToSpace s).data [])
    ⟨titleAux collapsed false⟩

/-- Embedding of `safe_folder_name`: spaces to underscores, then replace the
characters `\\ / * ? : " < > | ,` with underscores. -/
def safe_folder_name (s : String) : String :=
  ⟨(spaceToUnderscore s).data.map (fun c =>
    if c = '\\' || c = '/' || c = '*' || c = '?' || c = ':' || c = Char.ofNat 34
        || c = '<' || c = '>' || c = '|' || c = ',' then '_' else c)⟩

/-- One entry of `country_docs`: a standardized country name, the set of
original spellings seen for it (insertion order) and its files. -/
structure CGroup where
  std : String
  originals : List String
  files : List String
deriving DecidableEq

/-- Set insertion with first-occurrence order. -/
def insertNew (l : List String) (x : String) : List String :=
  if x ∈ l then l else l ++ [x]

/-- Addition of one parsed file to `country_docs` under its standardized key. -/
def addGroup (gs : List CGroup) (std orig file : String) : List CGroup :=
  if gs.any (fun g => g.std = std) then
    gs.map (fun g =>
      if g.std = std then ⟨g.std, insertNew g.originals orig, g.files ++ [file]⟩ else g)
  else gs ++ [⟨std, [orig], [file]⟩]

/-- First pass of `organize_by_country` over the flat file list: group files by
the standardized form of the country parsed from their names (files whose name
yields no country are left out). A group is later moved into the folder
`safe_folder_name(group.std)`, and a consolidation message is logged exactly
when `group.originals` has more than one element. -/
def countryDocs (files : List String) : List CGroup :=
  files.foldl
    (fun gs f =>
      match parseCountry f with
      | some c => addGroup gs (standardize_country_name c) c f
      | none => gs) []

/-! ## Report generator (`generate_reports.py`) -/

/-- Leftmost match of `(P\d{6})` anywhere in a file name
(`process_document`'s `pid_match`). -/
def findPidLoose : List Char → Option (List Char)
  | [] => none
  | c :: rest =>
    if c = 'P' && (rest.take 6).length = 6 && (rest.take 6).all Char.isDigit then
      some (c :: rest.take 6)
    else findPidLoose rest

/-- Project identifier a report row is keyed by, if the file name holds one. -/
def reportPid (filename : String) : Option String :=
  (findPidLoose filename.data).map (fun m => ⟨m⟩)

/-- Suffix-anchored document-type pattern `_([a-z]+)(?:_\d+)?\.pdf$` tested at
one start position of the lowercased name. -/
def primTypeAt (cs : List Char) : Option String :=
  match cs with
  | '_' :: rest =>
    if rest.length ≥ 4 && decide (rest.drop (rest.length - 4) = ".pdf".data) then
      match (rest.take (rest.length - 4)).splitOn '_' with
      | [t] => if !t.isEmpty && t.all Char.isLower then some ⟨t⟩ else none
      | [t, dpart] =>
        if !t.isEmpty && t.all Char.isLower && !dpart.isEmpty && dpart.all Char.isDigit then
          some ⟨t⟩
        else none
      | _ => none
    else none
  | _ => none

/-- `re.search` scan (leftmost position first) for the primary type pattern. -/
def scanPrim : List Char → Option String
  | [] => none
  | c :: rest =>
    match primTypeAt (c :: rest) with
    | some t => some t
    | none => scanPrim rest

/-- Secondary type pattern `_([a-z]+)_(?:en|non|unk|ocr)` tested at one
position: a maximal lowercase run, then an underscore, then a language tag. -/
def secTypeAt (cs : List Char) : Option String :=
  match cs with
  | '_' :: rest =>
    let run := rest.takeWhile Char.isLower
    if run.isEmpty then none
    else
      match rest.drop run.length with
      | '_' :: r2 =>
        if prefixOf "en".data r2 || prefixOf "non".data r2 || prefixOf "unk".data r2
            || prefixOf "ocr".data r2 then some ⟨run⟩
        else none
      | _ => none
  | _ => none

/-- `re.search` scan for the secondary type pattern. -/
def scanSec : List Char → Option String
  | [] => none
  | c :: rest =>
    match secTypeAt (c :: rest) with
    | some t => some t
    | none => scanSec rest

/-- Document type of a file in `process_document`: primary suffix pattern,
falling back to the secondary pattern (or "unknown") when the primary match is
one of the four language tags. -/
def docTypeOf (filename : String) : String :=
  let low := (lowerStr filename).data
  let dt := (scanPrim low).getD "unknown"
  if dt = "en" || dt = "non" || dt = "unk" || dt = "ocr" then (scanSec low).getD "unknown"
  else dt

/-- One value of `master_data`. -/
structure MEntry where
  country : String
  docTypes : List String
  count : Nat
deriving DecidableEq

/-- Seeding of `master_data` from the loaded portfolio mapping: one entry per
mapped identifier, with no document types and count 0. -/
def seedMaster (portfolio : List (String × String)) : List (String × MEntry) :=
  portfolio.map (fun p => (p.1, (⟨p.2, [], 0⟩ : MEntry)))

/-- In-place update of one master entry (add the document type, bump count). -/
def updateMaster (m : List (String × MEntry)) (pid dt : String) : List (String × MEntry) :=
  m.map (fun p =>
    if p.1 = pid then (p.1, (⟨p.2.country, insertNew p.2.docTypes dt, p.2.count + 1⟩ : MEntry))
    else p)

/-- `process_document`'s effect on `master_data` for one scanned file. -/
def processDoc (m : List (String × MEntry)) (filename countryName : String) :
    List (String × MEntry) :=
  match reportPid filename with
  | none => m
  | some pid =>
    let m1 := if m.any (fun p => p.1 = pid) then m
              else m ++ [(pid, (⟨countryName, [], 0⟩ : MEntry))]
    updateMaster m1 pid (docTypeOf filename)

/-- Folder scan of `generate_reports`: fold `process_document` over the placed
files, each given with the country-folder name it sits under. -/
def processAll (files : List (String × String)) (m : List (String × MEntry)) :
    List (String × MEntry) :=
  files.foldl (fun acc f => processDoc acc f.1 f.2) m

/-- One row of the master inventory report. -/
structure MRow where
  pid : String
  country : String
  hasDocs : Bool
  count : Nat
  flags : List (String × Nat)
  note : Option String
deriving DecidableEq

/-- Embedding of `generate_master_report`: one row per portfolio identifier (in
portfolio order), then one row per master-data identifier absent from the
portfolio, the latter carrying the "Not in original portfolio" note. -/
def masterReport (portfolio : List (String × String)) (master : List (String × MEntry))
    (allTypes : List String) : List MRow :=
  let sortedTypes := List.insertionSort (fun a b : String => a ≤ b) allTypes
  (portfolio.map (fun p =>
    match alookup master p.1 with
    | some e =>
      (⟨p.1, p.2, true, e.count,
        sortedTypes.map (fun t => (t, if t ∈ e.docTypes then 1 else 0)), none⟩ : MRow)
    | none => (⟨p.1, p.2, false, 0, sortedTypes.map (fun t => (t, 0)), none⟩ : MRow)))
  ++ ((master.filter (fun q => !(portfolio.any (fun p => p.1 = q.1)))).map (fun q =>
    (⟨q.1, q.2.country, true, q.2.count,
      sortedTypes.map (fun t => (t, if t ∈ q.2.docTypes then 1 else 0)),
      some "Not in original portfolio"⟩ : MRow)))

/-! ## Concrete inputs used by witnesses and counterexamples -/

/-- Oracle for a detector that recognizes English. -/
def dEn : String → Option String := fun _ => some "en"

/-- Oracle for a detector that always raises `LangDetectException`. -/
def dFail : String → Option String := fun _ => none

/-- A page text of 60 letters followed by 50 trailing spaces: 110 characters
in total, 60 after stripping. -/
def padText : String := ⟨List.replicate 60 'a' ++ List.replicate 50 ' '⟩

/-- A page text of 60 letters (60 characters, stripped or not). -/
def midText : String := ⟨List.replicate 60 'a'⟩

/-- An apostrophe, kept out of string literals. -/
def apoCh : Char := Char.ofNat 39

/-- Placed file name with the underscore spelling of the country. -/
def cexA : String := "COUNTRY_Cote_d_Ivoire_EN.pdf"

/-- Placed file name with the apostrophe spelling of the country. -/
def cexB : String := "COUNTRY_Cote d" ++ ⟨[apoCh]⟩ ++ "Ivoire_EN.pdf"

/-- The apostrophe spelling of the country name itself. -/
def apoCountry : String := "Cote d" ++ ⟨[apoCh]⟩ ++ "Ivoire"

/-- Placed file name with the space spelling of the country. -/
def witB : String := "COUNTRY_Cote d Ivoire_EN.pdf"

/-- Page text long enough (over 100 characters) for language detection, with
an embedded identifier and a country mention. -/
def pagesC1 : List String :=
  ["Project P123456 was implemented in the Republic of Kenya over several years with substantial funding from development partners."]

/-- Candidate country set with a compound name and its substring. -/
def witNames : List String := ["India", "British India"]

/-- Page text containing both candidates (the shorter as a word inside the
longer). -/
def witText : String := "Study of the British India railways"

/-- Portfolio mapping used by the report witness. -/
def witPortfolio : List (String × String) := [("P000001", "France")]

/-- Placed files used by the report witness: one document whose name holds an
identifier absent from the portfolio. -/
def witFiles : List (String × String) := [("P123456_Kenya_EN_icrr.pdf", "Kenya")]

/-! # Theorems -/

/-! ## Shared helper lemmas -/

theorem strip_length_le (s : String) : (strip s).length ≤ s.length := by
  show (stripChars s.data).length ≤ s.data.length
  unfold stripChars
  calc (((s.data.dropWhile isSpaceCh).reverse.dropWhile isSpaceCh).reverse).length
      = ((s.data.dropWhile isSpaceCh).reverse.dropWhile isSpaceCh).length := by
        rw [List.length_reverse]
    _ ≤ (s.data.dropWhile isSpaceCh).reverse.length :=
        (List.dropWhile_sublist _).length_le
    _ = (s.data.dropWhile isSpaceCh).length := by rw [List.length_reverse]
    _ ≤ s.data.length := (List.dropWhile_sublist _).length_le

/-- C2: a document with at least one page whose accumulated extracted text has
fewer than 50 characters after stripping is classified OCR, before any
language detection is attempted (so never EN, NON or UNK), for every
behaviour of the detection oracle. -/
theorem detect_language_ocr_floor (d : String → Option String) (pages : List String)
    (hne : pages ≠ []) (hlen : (strip (accumText pages)).length < 50) :
    detect_language d pages = "OCR" := by
  unfold detect_language
  rw [if_pos]
  exact ⟨hlen, List.length_pos.mpr hne⟩

theorem detect_language_ocr_floor_wit : detect_language dFail ["scan"] = "OCR" :=
  detect_language_ocr_floor dFail ["scan"] (by decide) (by decide)

/-- C3 counterexample: a page of 60 letters followed by 50 trailing spaces has
60 stripped characters — inside the claimed 50–100 UNK band — yet the total
length 110 exceeds the detection threshold, which the code tests unstripped,
so language detection runs and the document is classified EN, not UNK. -/
theorem detect_language_midband_cex :
    (strip (accumText [padText])).length = 60 ∧ 50 ≤ 60 ∧ 60 ≤ 100 ∧
    detect_language dEn [padText] = "EN" := by decide

/-- C3 (amended): a document whose accumulated extracted text has at least 50
characters after stripping and at most 100 characters in total is classified
UNK: it clears the OCR floor (tested on the stripped length) but stays at or
below the confident-detection threshold (tested on the unstripped length), so
no EN/NON verdict is produced. -/
theorem detect_language_unk_band (d : String → Option String) (pages : List String)
    (h1 : 50 ≤ (strip (accumText pages)).length)
    (h2 : (accumText pages).length ≤ 100) :
    detect_language d pages = "UNK" := by
  unfold detect_language
  have hs : ¬ ((strip (accumText pages)).length < 50 ∧ pages.length > 0) := by
    rintro ⟨h, -⟩; omega
  rw [if_neg hs, if_neg (by omega), if_pos]
  have := strip_length_le (accumText pages)
  omega

theorem detect_language_unk_band_wit : detect_language dFail [midText] = "UNK" :=
  detect_language_unk_band dFail [midText] (by decide) (by decide)

/-! ## C4: content identifier extraction -/

theorem findPidMatch_shape {l m : List Char} (h : findPidMatch l = some m) :
    ∃ suf, m = 'P' :: suf ∧ suf.length = 6 ∧ suf.all isPidCh = true := by
  induction l with
  | nil => simp [findPidMatch] at h
  | cons c rest ih =>
    rw [findPidMatch] at h
    split at h
    · rename_i hcond
      simp only [Bool.and_eq_true, decide_eq_true_eq] at hcond
      obtain ⟨⟨hc, hlen⟩, hall⟩ := hcond
      exact ⟨rest.take 6, by simpa [hc] using h.symm, by simpa using hlen, hall⟩
    · exact ih h

theorem all_isDigit_of_fixO {suf : List Char} (h : suf.all isPidCh = true) :
    (suf.map fixO).all Char.isDigit = true := by
  rw [List.all_map]
  rw [List.all_eq_true] at h ⊢
  intro c hc
  have := h c hc
  unfold isPidCh at this
  unfold Function.comp fixO
  rcases Bool.or_eq_true _ _ |>.mp this with hd | ho
  · have hne : ¬ c = 'O' := by
      rintro rfl
      simp at hd
    simp [hne, hd]
  · simp only [decide_eq_true_eq] at ho
    simp [ho]

/-- C4: whenever a page text contains a match of the content pattern
`P[0-9O]{6}`, the extractor returns the first match with every O of the
6-character suffix rewritten to 0, so the returned identifier is 7 characters,
starts with P, and contains only digits after it. -/
theorem extract_pid_content (t : String) (m : List Char)
    (h : findPidMatch t.data = some m) :
    ∃ r : String, extract_project_id [t] = some r ∧
      r.data = 'P' :: (m.drop 1).map fixO ∧
      (r.data.drop 1).all Char.isDigit = true ∧ r.length = 7 := by
  obtain ⟨suf, rfl, hlen, hall⟩ := findPidMatch_shape h
  refine ⟨⟨'P' :: suf.map fixO⟩, ?_, by simp, ?_, ?_⟩
  · show extractPidPages [t] = _
    rw [extractPidPages, h]
    simp
  · simpa using all_isDigit_of_fixO hall
  · show (('P' :: suf.map fixO).length) = 7
    simp [hlen]

theorem extract_pid_content_wit :
    ∃ r : String, extract_project_id ["Project P12O456 report"] = some r ∧
      r.data = 'P' :: ("12O456".data).map fixO ∧
      (r.data.drop 1).all Char.isDigit = true ∧ r.length = 7 :=
  extract_pid_content "Project P12O456 report" ('P' :: "12O456".data) (by decide)

/-! ## C1: identifier-based naming uses only the mapping lookup -/

/-- C1: whenever the pipeline finds an identifier (in content or filename),
the base name it builds is `{id}_{country}_{language}.pdf`, where the country
segment comes solely from the exact-key lookup of the identifier in the
mapping (spaces replaced by underscores) and is omitted entirely — giving
`{id}_{language}.pdf` — when the mapping has no entry; the page texts
influence the name only through the identifier and language, never through
country re-derivation (the country matcher does not appear on the right-hand
side). -/
theorem classify_pid_name (d : String → Option String) (pages : List String)
    (filename : String) (mapping variants : List (String × String)) (pid : String)
    (h : combinedPid pages filename = some pid) :
    classify_name d pages filename mapping variants =
      match alookup mapping pid with
      | some c =>
        if spaceToUnderscore c ≠ "" then
          pid ++ "_" ++ spaceToUnderscore c ++ "_" ++ detect_language d pages ++ ".pdf"
        else pid ++ "_" ++ detect_language d pages ++ ".pdf"
      | none => pid ++ "_" ++ detect_language d pages ++ ".pdf" := by
  unfold classify_name
  rw [h]
  cases halk : alookup mapping pid with
  | none =>
    have hz : spaceToUnderscore "" = "" := by decide
    simp [halk, hz]
  | some c => simp only [halk, Option.getD_some]

set_option maxRecDepth 4000 in
theorem classify_pid_name_wit :
    classify_name dEn pagesC1 "doc.docx" [("P123456", "France")] [] =
      "P123456_France_EN.pdf" :=
  (classify_pid_name dEn pagesC1 "doc.docx" [("P123456", "France")] [] "P123456"
    (by decide)).trans (by decide)

/-! ## C7 and C10: the bucketing pass -/

theorem prefixOf_cons_ex {p : Char} {ps l : List Char} (h : prefixOf (p :: ps) l = true) :
    ∃ t, l = p :: t := by
  cases l with
  | nil => simp [prefixOf] at h
  | cons c ts =>
    rw [prefixOf] at h
    simp only [Bool.and_eq_true, decide_eq_true_eq] at h
    exact ⟨ts, by rw [h.1]⟩

theorem unknown_not_country (f : String) (h : startsWithStr f "UNKNOWN_" = true) :
    startsWithStr f "COUNTRY_" = false ∧ pidStart f = false := by
  have h' : prefixOf ('U' :: "NKNOWN_".data) f.data = true := h
  obtain ⟨t, ht⟩ := prefixOf_cons_ex h'
  constructor
  · show prefixOf ('C' :: "OUNTRY_".data) f.data = false
    rw [ht]
    simp [prefixOf]
  · unfold pidStart
    rw [ht]
    simp

/-- C7: the bucketing pass is a closed, exhaustive three-way partition decided
purely by the filename prefix: a name starting with `COUNTRY_` or with a
leading identifier pattern goes to the country bucket and only then, a name
starting with `UNKNOWN_` goes to the unknown bucket and only then, and every
other name goes to the failed bucket — each file lands in exactly one
bucket. -/
theorem bucket_partition (f : String) :
    (bucket f = Bucket.country ↔ (startsWithStr f "COUNTRY_" = true ∨ pidStart f = true)) ∧
    (bucket f = Bucket.unknown ↔ startsWithStr f "UNKNOWN_" = true) ∧
    (bucket f = Bucket.failed ↔
      (startsWithStr f "COUNTRY_" = false ∧ pidStart f = false ∧
        startsWithStr f "UNKNOWN_" = false)) := by
  cases h3 : startsWithStr f "UNKNOWN_" with
  | true =>
    rcases unknown_not_country f h3 with ⟨hc, hp⟩
    simp [bucket, hc, hp, h3]
  | false =>
    cases h1 : startsWithStr f "COUNTRY_" <;> cases h2 : pidStart f <;>
      simp [bucket, h1, h2, h3]

/-- C10: every file whose name starts with `SCAN_OCR_DOCUMENT` (the marker the
pipeline gives identifier-less scanned documents) is routed to the failed
bucket: its prefix matches neither `COUNTRY_`, nor the leading identifier
pattern, nor `UNKNOWN_`. -/
theorem scan_marker_failed (f : String) (h : startsWithStr f "SCAN_OCR_DOCUMENT" = true) :
    bucket f = Bucket.failed := by
  have h' : prefixOf ('S' :: "CAN_OCR_DOCUMENT".data) f.data = true := h
  obtain ⟨t, ht⟩ := prefixOf_cons_ex h'
  have hc : startsWithStr f "COUNTRY_" = false := by
    show prefixOf ('C' :: "OUNTRY_".data) f.data = false
    rw [ht]; simp [prefixOf]
  have hu : startsWithStr f "UNKNOWN_" = false := by
    show prefixOf ('U' :: "NKNOWN_".data) f.data = false
    rw [ht]; simp [prefixOf]
  have hp : pidStart f = false := by
    unfold pidStart
    rw [ht]; simp
  simp [bucket, hc, hp, hu]

theorem scan_marker_failed_wit : bucket "SCAN_OCR_DOCUMENT.pdf" = Bucket.failed :=
  scan_marker_failed "SCAN_OCR_DOCUMENT.pdf" (by decide)

/-! ## C8: country-name normalization and consolidation -/

/-- C8 counterexample: the normalization only replaces underscores with
spaces, collapses whitespace and title-cases, so `COUNTRY_Cote_d_Ivoire_EN.pdf`
normalizes to "Cote D Ivoire" while the apostrophe spelling
`COUNTRY_Cote d'Ivoire_EN.pdf` normalizes to "Cote D'Ivoire": the two files
fall into two distinct groups (and two distinct folders), not the same one. -/
theorem standardize_apostrophe_cex :
    parseCountry cexA = some "Cote_d_Ivoire" ∧
    parseCountry cexB = some apoCountry ∧
    standardize_country_name "Cote_d_Ivoire" ≠ standardize_country_name apoCountry ∧
    (countryDocs [cexA, cexB]).length = 2 ∧
    safe_folder_name (standardize_country_name "Cote_d_Ivoire") ≠
      safe_folder_name (standardize_country_name apoCountry) := by decide

/-- C8 (amended): country names parsed from file names are normalized by
replacing underscores with spaces, collapsing repeated whitespace and
title-casing, and two files whose normalized country names are equal are
grouped into the same country folder, the group recording both original
variants (so the consolidation is logged, which happens exactly when a group
has more than one original spelling). The underscore/space pair
`COUNTRY_Cote_d_Ivoire_EN.pdf` / `COUNTRY_Cote d Ivoire_EN.pdf` consolidates
this way; the apostrophe spelling of the claim's example does not normalize to
the same folder. -/
theorem standardize_consolidation (f1 f2 c1 c2 : String)
    (h1 : parseCountry f1 = some c1) (h2 : parseCountry f2 = some c2)
    (hstd : standardize_country_name c1 = standardize_country_name c2)
    (hne : c1 ≠ c2) :
    countryDocs [f1, f2] =
      [⟨standardize_country_name c1, [c1, c2], [f1, f2]⟩] := by
  unfold countryDocs
  simp only [List.foldl_cons, List.foldl_nil, h1, h2]
  have e1 : addGroup [] (standardize_country_name c1) c1 f1 =
      [⟨standardize_country_name c1, [c1], [f1]⟩] := by
    simp [addGroup]
  rw [e1]
  have hany : (([⟨standardize_country_name c1, [c1], [f1]⟩] : List CGroup).any
      (fun g => g.std = standardize_country_name c2)) = true := by
    simp [hstd]
  rw [addGroup, if_pos hany]
  simp [hstd, insertNew, hne, Ne.symm hne]

theorem standardize_consolidation_wit :
    countryDocs [cexA, witB] =
      [⟨"Cote D Ivoire", ["Cote_d_Ivoire", "Cote d Ivoire"], [cexA, witB]⟩] :=
  (standardize_consolidation cexA witB "Cote_d_Ivoire" "Cote d Ivoire"
    (by decide) (by decide) (by decide) (by decide)).trans (by decide)

/-! ## C6: the name resolver -/

theorem digitCh_inj : ∀ d < 10, ∀ e < 10, digitCh d = digitCh e → d = e := by decide

theorem map_digitCh_inj : ∀ l1 l2 : List Nat, (∀ x ∈ l1, x < 10) → (∀ x ∈ l2, x < 10) →
    l1.map digitCh = l2.map digitCh → l1 = l2 := by
  intro l1
  induction l1 with
  | nil =>
    intro l2 _ _ h
    cases l2 with
    | nil => rfl
    | cons b t2 => simp at h
  | cons a t ih =>
    intro l2 h1 h2 h
    cases l2 with
    | nil => simp at h
    | cons b t2 =>
      simp only [List.map_cons, List.cons.injEq] at h
      have hab := digitCh_inj a (h1 a (by simp)) b (h2 b (by simp)) h.1
      have ht := ih t2 (fun x hx => h1 x (by simp [hx])) (fun x hx => h2 x (by simp [hx])) h.2
      rw [hab, ht]

theorem digits_all_lt (n : Nat) : ∀ x ∈ Nat.digits 10 n, x < 10 :=
  fun _ hx => Nat.digits_lt_base (by norm_num) hx

theorem decRepr_inj : ∀ {m n : Nat}, decRepr m = decRepr n → m = n := by
  intro m n h
  unfold decRepr at h
  by_cases hm : m = 0 <;> by_cases hn : n = 0
  · rw [hm, hn]
  · exfalso
    rw [if_pos hm, if_neg hn] at h
    have hd := congrArg String.data h
    have hrev : (Nat.digits 10 n).map digitCh = ['0'] := by
      have : ((Nat.digits 10 n).map digitCh).reverse = ['0'] := hd.symm
      have h2 := congrArg List.reverse this
      simpa using h2
    have : Nat.digits 10 n = [0] :=
      map_digitCh_inj _ [0] (digits_all_lt n) (by simp) (by simpa using hrev)
    have hzero : n = 0 := by
      have := congrArg (Nat.ofDigits 10) this
      rw [Nat.ofDigits_digits] at this
      simpa [Nat.ofDigits] using this
    exact hn hzero
  · exfalso
    rw [if_neg hm, if_pos hn] at h
    have hd := congrArg String.data h
    have hrev : (Nat.digits 10 m).map digitCh = ['0'] := by
      have : ((Nat.digits 10 m).map digitCh).reverse = ['0'] := hd
      have h2 := congrArg List.reverse this
      simpa using h2
    have : Nat.digits 10 m = [0] :=
      map_digitCh_inj _ [0] (digits_all_lt m) (by simp) (by simpa using hrev)
    have hzero : m = 0 := by
      have := congrArg (Nat.ofDigits 10) this
      rw [Nat.ofDigits_digits] at this
      simpa [Nat.ofDigits] using this
    exact hm hzero
  · rw [if_neg hm, if_neg hn] at h
    have hd := congrArg String.data h
    have hrev := List.reverse_injective hd
    have := map_digitCh_inj _ _ (digits_all_lt m) (digits_all_lt n) hrev
    have h2 := congrArg (Nat.ofDigits 10) this
    rwa [Nat.ofDigits_digits, Nat.ofDigits_digits] at h2

theorem decRepr_head {n : Nat} (hn : n ≠ 0) :
    ∃ d, d ≠ 0 ∧ d < 10 ∧ (decRepr n).data.head? = some (digitCh d) := by
  have hne : Nat.digits 10 n ≠ [] := Nat.digits_ne_nil_iff_ne_zero.mpr hn
  refine ⟨(Nat.digits 10 n).getLast hne, Nat.getLast_digit_ne_zero 10 hn,
    digits_all_lt n _ (List.getLast_mem hne), ?_⟩
  unfold decRepr
  rw [if_neg hn]
  show ((Nat.digits 10 n).map digitCh).reverse.head? = _
  rw [List.head?_reverse]
  rw [List.getLast?_eq_getLast _ (by simpa using hne)]
  congr 1
  exact List.getLast_map _ _ _

theorem pad2_inj : ∀ {m n : Nat}, pad2 m = pad2 n → m = n := by
  intro m n h
  unfold pad2 at h
  by_cases hm : m < 10 <;> by_cases hn : n < 10
  · rw [if_pos hm, if_pos hn] at h
    have := congrArg String.data h
    simp only [String.data_append] at this
    exact decRepr_inj (String.ext (List.append_cancel_left this))
  · exfalso
    rw [if_pos hm, if_neg hn] at h
    obtain ⟨d, hd0, hd10, hhead⟩ := decRepr_head (show n ≠ 0 by omega)
    have hz : ("0" ++ decRepr m).data.head? = some '0' := by
      simp [String.data_append]
    rw [h] at hz
    rw [hz] at hhead
    have : '0' = digitCh d := by injection hhead
    have : (0 : Nat) = d := digitCh_inj 0 (by norm_num) d hd10 this
    exact hd0 this.symm
  · exfalso
    rw [if_neg hm, if_pos hn] at h
    obtain ⟨d, hd0, hd10, hhead⟩ := decRepr_head (show m ≠ 0 by omega)
    have hz : ("0" ++ decRepr n).data.head? = some '0' := by
      simp [String.data_append]
    rw [← h] at hz
    rw [hz] at hhead
    have : '0' = digitCh d := by injection hhead
    have : (0 : Nat) = d := digitCh_inj 0 (by norm_num) d hd10 this
    exact hd0 this.symm
  · rw [if_neg hm, if_neg hn] at h
    exact decRepr_inj h

theorem mkCand_inj {name ext : String} {i j : Nat}
    (h : mkCand name ext i = mkCand name ext j) : i = j := by
  unfold mkCand at h
  have hd := congrArg String.data h
  simp only [String.data_append] at hd
  exact pad2_inj (String.ext (List.append_cancel_left (List.append_cancel_right hd)))

theorem exists_free (fs : List String) (name ext : String) :
    ∃ c, 1 ≤ c ∧ c ≤ fs.length + 1 ∧ mkCand name ext c ∉ fs := by
  by_contra hcon
  push_neg at hcon
  have hinj : Set.InjOn (mkCand name ext) (Finset.Icc 1 (fs.length + 1)) :=
    fun a _ b _ h => mkCand_inj h
  have hsub : (Finset.Icc 1 (fs.length + 1)).image (mkCand name ext) ⊆ fs.toFinset := by
    intro x hx
    simp only [Finset.mem_image] at hx
    obtain ⟨c, hc, rfl⟩ := hx
    rw [Finset.mem_Icc] at hc
    rw [List.mem_toFinset]
    exact hcon c hc.1 hc.2
  have hcard := Finset.card_le_card hsub
  rw [Finset.card_image_of_injOn hinj, Nat.card_Icc] at hcard
  have := List.toFinset_card_le fs
  omega

theorem findFree_spec (fs : List String) (name ext : String) :
    ∀ fuel start : Nat,
      (∃ c, start ≤ c ∧ c < start + fuel ∧ mkCand name ext c ∉ fs) →
      mkCand name ext (findFree fs name ext fuel start) ∉ fs ∧
      start ≤ findFree fs name ext fuel start ∧
      ∀ j, start ≤ j → j < findFree fs name ext fuel start → mkCand name ext j ∈ fs := by
  intro fuel
  induction fuel with
  | zero =>
    rintro start ⟨c, h1, h2, -⟩
    omega
  | succ n ih =>
    intro start hex
    rw [findFree]
    by_cases hmem : mkCand name ext start ∈ fs
    · rw [if_pos hmem]
      have hex2 : ∃ c, start + 1 ≤ c ∧ c < start + 1 + n ∧ mkCand name ext c ∉ fs := by
        obtain ⟨c, h1, h2, h3⟩ := hex
        refine ⟨c, ?_, by omega, h3⟩
        rcases Nat.eq_or_lt_of_le h1 with rfl | hlt
        · exact absurd hmem h3
        · omega
      obtain ⟨ha, hb, hc⟩ := ih (start + 1) hex2
      refine ⟨ha, by omega, ?_⟩
      intro j hj1 hj2
      rcases Nat.eq_or_lt_of_le hj1 with rfl | hlt
      · exact hmem
      · exact hc j hlt hj2
    · rw [if_neg hmem]
      exact ⟨hmem, le_refl _, fun j hj1 hj2 => absurd (lt_of_le_of_lt hj1 hj2) (lt_irrefl _)⟩

/-- C6: the name resolver returns a non-existing target unchanged; for an
existing target it returns the target with `_NN` (the zero-padded counter,
starting at 01) inserted before the extension, using the smallest counter
whose path is free — in particular the returned path is itself free, so it
never equals an existing input. -/
theorem resolver_spec (fs : List String) (base : String) :
    (base ∉ fs → get_unique_filename fs base = base) ∧
    (base ∈ fs → ∃ k, 1 ≤ k ∧
      get_unique_filename fs base = mkCand (splitExt base).1 (splitExt base).2 k ∧
      mkCand (splitExt base).1 (splitExt base).2 k ∉ fs ∧
      (∀ j, 1 ≤ j → j < k → mkCand (splitExt base).1 (splitExt base).2 j ∈ fs) ∧
      get_unique_filename fs base ≠ base) := by
  constructor
  · intro h
    unfold get_unique_filename
    rw [if_neg h]
  · intro h
    have hval : get_unique_filename fs base =
        mkCand (splitExt base).1 (splitExt base).2
          (findFree fs (splitExt base).1 (splitExt base).2 (fs.length + 1) 1) := by
      unfold get_unique_filename
      rw [if_pos h]
    have hex : ∃ c, 1 ≤ c ∧ c < 1 + (fs.length + 1) ∧
        mkCand (splitExt base).1 (splitExt base).2 c ∉ fs := by
      obtain ⟨c, h1, h2, h3⟩ := exists_free fs (splitExt base).1 (splitExt base).2
      exact ⟨c, h1, by omega, h3⟩
    obtain ⟨ha, hb, hc⟩ :=
      findFree_spec fs (splitExt base).1 (splitExt base).2 (fs.length + 1) 1 hex
    refine ⟨_, hb, hval, ha, hc, ?_⟩
    rw [hval]
    intro heq
    rw [heq] at ha
    exact ha h

theorem resolver_spec_wit :
    ∃ k, 1 ≤ k ∧
      get_unique_filename ["a.pdf", "a_01.pdf"] "a.pdf" =
        mkCand (splitExt "a.pdf").1 (splitExt "a.pdf").2 k ∧
      mkCand (splitExt "a.pdf").1 (splitExt "a.pdf").2 k ∉ ["a.pdf", "a_01.pdf"] ∧
      (∀ j, 1 ≤ j → j < k →
        mkCand (splitExt "a.pdf").1 (splitExt "a.pdf").2 j ∈ ["a.pdf", "a_01.pdf"]) ∧
      get_unique_filename ["a.pdf", "a_01.pdf"] "a.pdf" ≠ "a.pdf" :=
  (resolver_spec ["a.pdf", "a_01.pdf"] "a.pdf").2 (by decide)

/-! ## C5: longest-first country matching -/

theorem mk_length (l : List Char) : (⟨l⟩ : String).length = l.length := rfl

theorem underscoreToSpace_length (s : String) :
    (underscoreToSpace s).length = s.length := by
  show (s.data.map _).length = s.data.length
  exact List.length_map _ _

theorem lowerStr_length (s : String) : (lowerStr s).length = s.length := by
  show (s.data.map _).length = s.data.length
  exact List.length_map _ _

theorem patInsert_mem_self (pats : List String) (p : String) : p ∈ patInsert pats p := by
  unfold patInsert
  split
  · assumption
  · simp

theorem patInsert_mono {pats : List String} {x : String} (p : String) (h : x ∈ pats) :
    x ∈ patInsert pats p := by
  unfold patInsert
  split
  · exact h
  · exact List.mem_append_left _ h

theorem patInsert_cases {pats : List String} {p x : String} (h : x ∈ patInsert pats p) :
    x ∈ pats ∨ x = p := by
  unfold patInsert at h
  split at h
  · exact Or.inl h
  · simpa using h

theorem buildPats_mono : ∀ (cs pats : List String) (vts : List (String × String))
    (x : String), x ∈ pats → x ∈ (buildCountryPats cs pats vts).1 := by
  intro cs
  induction cs with
  | nil => intro pats vts x h; simpa [buildCountryPats] using h
  | cons c cs ih =>
    intro pats vts x h
    simp only [buildCountryPats]
    split
    · exact ih _ _ _ (patInsert_mono _ (patInsert_mono _ h))
    · exact ih _ _ _ (patInsert_mono _ h)

theorem buildPats_mem : ∀ (cs pats : List String) (vts : List (String × String))
    (c : String), c ∈ cs → c ∈ (buildCountryPats cs pats vts).1 := by
  intro cs
  induction cs with
  | nil => intro pats vts c h; simp at h
  | cons x cs ih =>
    intro pats vts c h
    rcases List.mem_cons.mp h with rfl | hm
    · simp only [buildCountryPats]
      split
      · exact buildPats_mono _ _ _ _ (patInsert_mono _ (patInsert_mem_self _ _))
      · exact buildPats_mono _ _ _ _ (patInsert_mem_self _ _)
    · simp only [buildCountryPats]
      split
      · exact ih _ _ _ hm
      · exact ih _ _ _ hm

theorem pairwise_patInsert {pats : List String} {p : String}
    (hp : pats.Pairwise (fun a b : String => b.length ≤ a.length))
    (hle : ∀ q ∈ pats, p.length ≤ q.length) :
    (patInsert pats p).Pairwise (fun a b : String => b.length ≤ a.length) := by
  unfold patInsert
  split
  · exact hp
  · rw [List.pairwise_append]
    refine ⟨hp, by simp, ?_⟩
    intro a ha b hb
    rcases List.mem_singleton.mp hb with rfl
    exact hle a ha

theorem buildPats_pairwise : ∀ (cs pats : List String) (vts : List (String × String)),
    pats.Pairwise (fun a b : String => b.length ≤ a.length) →
    cs.Pairwise (fun a b : String => b.length ≤ a.length) →
    (∀ p ∈ pats, ∀ c ∈ cs, c.length ≤ p.length) →
    ((buildCountryPats cs pats vts).1).Pairwise (fun a b : String => b.length ≤ a.length) := by
  intro cs
  induction cs with
  | nil => intro pats vts hp _ _; simpa [buildCountryPats] using hp
  | cons c cs ih =>
    intro pats vts hp hcs hlink
    have hc_le : ∀ q ∈ pats, c.length ≤ q.length := fun q hq => hlink q hq c (by simp)
    have hcs_pw := (List.pairwise_cons.mp hcs).2
    have hc_cs : ∀ c2 ∈ cs, c2.length ≤ c.length := (List.pairwise_cons.mp hcs).1
    have hpc : (patInsert pats c).Pairwise (fun a b : String => b.length ≤ a.length) :=
      pairwise_patInsert hp hc_le
    have hpc_le : ∀ q ∈ patInsert pats c, c.length ≤ q.length := by
      intro q hq
      rcases patInsert_cases hq with h | rfl
      · exact hc_le q h
      · exact le_refl _
    simp only [buildCountryPats]
    split
    · apply ih
      · apply pairwise_patInsert hpc
        intro q hq
        rw [underscoreToSpace_length]
        exact hpc_le q hq
      · exact hcs_pw
      · intro p hp2 c2 hc2
        rcases patInsert_cases hp2 with hp3 | rfl
        · rcases patInsert_cases hp3 with hp4 | rfl
          · exact hlink p hp4 c2 (by simp [hc2])
          · exact hc_cs c2 hc2
        · rw [underscoreToSpace_length]
          exact hc_cs c2 hc2
    · refine ih _ _ hpc hcs_pw ?_
      intro p hp2 c2 hc2
      rcases patInsert_cases hp2 with hp3 | rfl
      · exact hlink p hp3 c2 (by simp [hc2])
      · exact hc_cs c2 hc2

theorem upsert_forall {β : Type} (P : String × β → Prop) (m : List (String × β))
    (k : String) (v : β) (hm : ∀ e ∈ m, P e) (hkv : P (k, v)) :
    ∀ e ∈ upsert m k v, P e := by
  intro e he
  unfold upsert at he
  split at he
  · rw [List.mem_map] at he
    obtain ⟨p, hpm, hpe⟩ := he
    by_cases hc : p.1 = k
    · rw [if_pos hc] at hpe
      rw [← hpe]
      exact hkv
    · rw [if_neg hc] at hpe
      rw [← hpe]
      exact hm p hpm
  · rcases List.mem_append.mp he with h | h
    · exact hm e h
    · rcases List.mem_singleton.mp h with rfl
      exact hkv

theorem buildPats_vts_len : ∀ (cs pats : List String) (vts : List (String × String)),
    (∀ e ∈ vts, e.1.length = e.2.length) →
    ∀ e ∈ (buildCountryPats cs pats vts).2, e.1.length = e.2.length := by
  intro cs
  induction cs with
  | nil => intro pats vts h; simpa [buildCountryPats] using h
  | cons c cs ih =>
    intro pats vts h
    simp only [buildCountryPats]
    split
    · apply ih
      apply upsert_forall _ _ _ _ h
      show (lowerStr (underscoreToSpace c)).length = c.length
      rw [lowerStr_length, underscoreToSpace_length]
    · exact ih _ _ h

theorem alookup_mem {β : Type} : ∀ {m : List (String × β)} {k : String} {v : β},
    alookup m k = some v → (k, v) ∈ m := by
  intro m
  induction m with
  | nil => intro k v h; simp [alookup] at h
  | cons e rest ih =>
    obtain ⟨k2, w⟩ := e
    intro k v h
    rw [alookup] at h
    split at h
    · rename_i hk
      injection h with h2
      subst hk
      subst h2
      exact List.mem_cons_self _ _
    · exact List.mem_cons_of_mem _ (ih h)

theorem find?_sorted (pred : String → Bool) : ∀ {l : List String} {a : String},
    l.Pairwise (fun a b : String => b.length ≤ a.length) → a ∈ l → pred a = true →
    ∃ p, l.find? pred = some p ∧ a.length ≤ p.length := by
  intro l
  induction l with
  | nil => intro a _ h _; simp at h
  | cons x xs ih =>
    intro a hpw ha hpred
    cases hx : pred x with
    | true =>
      refine ⟨x, by rw [List.find?_cons_of_pos _ hx], ?_⟩
      rcases List.mem_cons.mp ha with rfl | hm
      · exact le_refl _
      · exact (List.pairwise_cons.mp hpw).1 a hm
    | false =>
      have ham : a ∈ xs := by
        rcases List.mem_cons.mp ha with rfl | hm
        · rw [hx] at hpred; exact Bool.noConfusion hpred
        · exact hm
      obtain ⟨p, hfind, hlen⟩ := ih (List.pairwise_cons.mp hpw).2 ham hpred
      exact ⟨p, by rw [List.find?_cons_of_neg _ (by simp [hx])]; exact hfind, hlen⟩

theorem sortLenDesc_pairwise (l : List String) :
    (sortLenDesc l).Pairwise (fun a b : String => b.length ≤ a.length) := by
  haveI : IsTotal String (fun a b : String => b.length ≤ a.length) :=
    ⟨fun a b => Nat.le_total b.length a.length⟩
  haveI : IsTrans String (fun a b : String => b.length ≤ a.length) :=
    ⟨fun _ _ _ h1 h2 => le_trans h2 h1⟩
  exact List.sorted_insertionSort _ l

theorem wordSearch_empty_false {pat : String} (h : pat.data ≠ []) :
    wordSearch pat "" = false := by
  cases hp : pat.data with
  | nil => exact absurd hp h
  | cons c tl =>
    unfold wordSearch wordMatchAt
    have hd : ("" : String).data = [] := rfl
    rw [hd, hp]
    simp [ciStarts]

/-- C5: candidate country names are tested longest first, so if a configured
candidate `a` word-matches the page text, the returned canonical name is at
least as long as `a`; in particular a configured strictly shorter candidate
`b` is never the value returned in its place, even when both occur in the
text. -/
theorem country_longer_preferred (names : List String) (a b t : String)
    (ha : a ∈ names) (hb : b ∈ names) (hlen : b.length < a.length)
    (hmatch : wordSearch a t = true) :
    ∃ r, extract_country_from_pdf [t] names [] = some r ∧
      a.length ≤ r.length ∧ r ≠ b := by
  have hnames : ¬ names = [] := by rintro rfl; simp at ha
  have hadata : a.data ≠ [] := by
    intro hd
    have : a.length = 0 := by
      show a.data.length = 0
      rw [hd]; rfl
    omega
  have hne_t : ¬ t = "" := by
    rintro rfl
    rw [wordSearch_empty_false hadata] at hmatch
    exact Bool.noConfusion hmatch
  have hsorted := buildPats_pairwise (sortLenDesc names) [] [] (by simp)
    (sortLenDesc_pairwise names) (by simp)
  have hmem : a ∈ (buildCountryPats (sortLenDesc names) [] []).1 :=
    buildPats_mem _ _ _ a (((List.perm_insertionSort _ names).mem_iff).mpr ha)
  obtain ⟨p, hfind, hplen⟩ := find?_sorted (fun q => wordSearch q t) hsorted hmem hmatch
  have hvts : ∀ e ∈ (buildCountryPats (sortLenDesc names) [] []).2,
      e.1.length = e.2.length := buildPats_vts_len _ _ _ (by simp)
  have hrlen : p.length ≤
      ((alookup (buildCountryPats (sortLenDesc names) [] []).2 (lowerStr p)).getD p).length := by
    cases hlk : alookup (buildCountryPats (sortLenDesc names) [] []).2 (lowerStr p) with
    | none => simp
    | some v =>
      have hvl := hvts _ (alookup_mem hlk)
      have hlow : (lowerStr p).length = p.length := lowerStr_length p
      simp only [Option.getD_some]
      simp only at hvl
      omega
  refine ⟨(alookup (buildCountryPats (sortLenDesc names) [] []).2 (lowerStr p)).getD p,
    ?_, le_trans hplen hrlen, ?_⟩
  · unfold extract_country_from_pdf
    rw [if_neg hnames]
    show searchPages [t] (buildCountryPats (sortLenDesc names) [] []).1
      (buildCountryPats (sortLenDesc names) [] []).2 = _
    rw [searchPages, if_neg hne_t, hfind]
  · intro hrb
    rw [hrb] at hrlen
    omega

theorem country_longer_preferred_wit :
    ∃ r, extract_country_from_pdf [witText] witNames [] = some r ∧
      ("British India" : String).length ≤ r.length ∧ r ≠ "India" :=
  country_longer_preferred witNames "British India" "India" witText
    (by decide) (by decide) (by decide) (by decide)

/-! ## C9: the master inventory report -/

theorem updateMaster_keys (m : List (String × MEntry)) (pid dt : String) :
    (updateMaster m pid dt).map Prod.fst = m.map Prod.fst := by
  unfold updateMaster
  rw [List.map_map]
  apply List.map_congr_left
  intro p _
  by_cases h : p.1 = pid <;> simp [h]

theorem processDoc_keys (m : List (String × MEntry)) (fn cn pid : String) :
    pid ∈ (processDoc m fn cn).map Prod.fst ↔
      pid ∈ m.map Prod.fst ∨ reportPid fn = some pid := by
  unfold processDoc
  cases hrp : reportPid fn with
  | none => simp
  | some pid2 =>
    rw [updateMaster_keys]
    by_cases hany : (m.any fun p => decide (p.1 = pid2)) = true
    · rw [if_pos hany]
      constructor
      · exact Or.inl
      · rintro (h | h)
        · exact h
        · injection h with h2
          subst h2
          obtain ⟨p, hpm, hp⟩ := List.any_eq_true.mp hany
          simp only [decide_eq_true_eq] at hp
          exact List.mem_map.mpr ⟨p, hpm, hp⟩
    · rw [if_neg hany]
      rw [List.map_append]
      simp [List.mem_append, eq_comm]

theorem processDoc_nodup (m : List (String × MEntry)) (fn cn : String)
    (h : (m.map Prod.fst).Nodup) : ((processDoc m fn cn).map Prod.fst).Nodup := by
  unfold processDoc
  cases hrp : reportPid fn with
  | none => exact h
  | some pid2 =>
    rw [updateMaster_keys]
    by_cases hany : (m.any fun p => decide (p.1 = pid2)) = true
    · rw [if_pos hany]; exact h
    · rw [if_neg hany]
      rw [List.map_append, List.nodup_append]
      refine ⟨h, by simp, ?_⟩
      intro x hx
      simp only [List.map_cons, List.map_nil, List.mem_singleton]
      rintro rfl
      have hfalse := List.any_eq_false.mp (Bool.eq_false_iff.mpr (fun hh => hany hh))
      obtain ⟨p, hpm, hp⟩ := List.mem_map.mp hx
      exact hfalse p hpm (by simp [hp])

theorem processAll_keys : ∀ (files : List (String × String)) (m : List (String × MEntry))
    (pid : String), pid ∈ (processAll files m).map Prod.fst ↔
      pid ∈ m.map Prod.fst ∨ ∃ f ∈ files, reportPid f.1 = some pid := by
  intro files
  induction files with
  | nil => intro m pid; simp [processAll]
  | cons f fs ih =>
    intro m pid
    have hstep : processAll (f :: fs) m = processAll fs (processDoc m f.1 f.2) := by
      unfold processAll
      rw [List.foldl_cons]
    rw [hstep, ih, processDoc_keys, List.exists_mem_cons_iff]
    tauto

theorem processAll_nodup : ∀ (files : List (String × String)) (m : List (String × MEntry)),
    (m.map Prod.fst).Nodup → ((processAll files m).map Prod.fst).Nodup := by
  intro files
  induction files with
  | nil => intro m h; exact h
  | cons f fs ih =>
    intro m h
    have hstep : processAll (f :: fs) m = processAll fs (processDoc m f.1 f.2) := by
      unfold processAll
      rw [List.foldl_cons]
    rw [hstep]
    exact ih _ (processDoc_nodup _ _ _ h)

theorem seedMaster_keys (pf : List (String × String)) :
    (seedMaster pf).map Prod.fst = pf.map Prod.fst := by
  unfold seedMaster
  rw [List.map_map]
  apply List.map_congr_left
  intro p _
  rfl

theorem masterReport_pids (pf : List (String × String)) (master : List (String × MEntry))
    (types : List String) :
    (masterReport pf master types).map MRow.pid =
      pf.map Prod.fst ++
        (master.filter (fun q => !(pf.any (fun p => p.1 = q.1)))).map Prod.fst := by
  unfold masterReport
  rw [List.map_append, List.map_map, List.map_map]
  congr 1
  · apply List.map_congr_left
    intro p _
    show (match alookup master p.1 with
          | some e => _
          | none => _ : MRow).pid = p.1
    cases alookup master p.1 <;> rfl

theorem mem_filter_keys (pf : List (String × String)) (master : List (String × MEntry))
    (pid : String) :
    pid ∈ (master.filter (fun q => !(pf.any (fun p => p.1 = q.1)))).map Prod.fst ↔
      pid ∈ master.map Prod.fst ∧ pid ∉ pf.map Prod.fst := by
  constructor
  · intro h
    obtain ⟨q, hq, rfl⟩ := List.mem_map.mp h
    obtain ⟨hqm, hfil⟩ := List.mem_filter.mp hq
    refine ⟨List.mem_map.mpr ⟨q, hqm, rfl⟩, ?_⟩
    intro hmem
    obtain ⟨p, hpm, hp⟩ := List.mem_map.mp hmem
    simp only [Bool.not_eq_true'] at hfil
    exact (List.any_eq_false.mp hfil) p hpm (by simp [hp])
  · rintro ⟨h1, h2⟩
    obtain ⟨q, hqm, rfl⟩ := List.mem_map.mp h1
    refine List.mem_map.mpr ⟨q, List.mem_filter.mpr ⟨hqm, ?_⟩, rfl⟩
    simp only [Bool.not_eq_true']
    rw [List.any_eq_false]
    intro p hpm hp
    simp only [decide_eq_true_eq] at hp
    exact h2 (List.mem_map.mpr ⟨p, hpm, hp⟩)

theorem masterReport_note (pf : List (String × String)) (master : List (String × MEntry))
    (types : List String) (row : MRow) (hrow : row ∈ masterReport pf master types) :
    (row.note = some "Not in original portfolio" ↔ row.pid ∉ pf.map Prod.fst) := by
  unfold masterReport at hrow
  rcases List.mem_append.mp hrow with h | h
  · obtain ⟨p, hpm, hpe⟩ := List.mem_map.mp h
    have hpid : row.pid = p.1 := by
      rw [← hpe]
      cases alookup master p.1 <;> rfl
    have hnote : row.note = none := by
      rw [← hpe]
      cases alookup master p.1 <;> rfl
    rw [hnote, hpid]
    constructor
    · intro h2; exact Option.noConfusion h2
    · intro h2
      exact absurd (List.mem_map.mpr ⟨p, hpm, rfl⟩) h2
  · obtain ⟨q, hqm, hqe⟩ := List.mem_map.mp h
    obtain ⟨hqmem, hfil⟩ := List.mem_filter.mp hqm
    have hpid : row.pid = q.1 := by rw [← hqe]
    have hnote : row.note = some "Not in original portfolio" := by rw [← hqe]
    rw [hnote, hpid]
    refine ⟨fun _ => ?_, fun _ => rfl⟩
    intro hmem
    obtain ⟨p, hpm, hp⟩ := List.mem_map.mp hmem
    simp only [Bool.not_eq_true'] at hfil
    exact (List.any_eq_false.mp hfil) p hpm (by simp [hp])

/-- C9: the master inventory has exactly one row per project identifier, the
row set being the identifiers seeded from the external mapping plus the
identifiers discovered in the processed documents' names, and a row carries
the "Not in original portfolio" note exactly when its identifier is absent
from the mapping. -/
theorem master_inventory (pf files : List (String × String)) (types : List String)
    (hnd : (pf.map Prod.fst).Nodup) :
    ((masterReport pf (processAll files (seedMaster pf)) types).map MRow.pid).Nodup ∧
    (∀ pid, pid ∈ (masterReport pf (processAll files (seedMaster pf)) types).map MRow.pid ↔
      (pid ∈ pf.map Prod.fst ∨ ∃ f ∈ files, reportPid f.1 = some pid)) ∧
    (∀ row ∈ masterReport pf (processAll files (seedMaster pf)) types,
      (row.note = some "Not in original portfolio" ↔ row.pid ∉ pf.map Prod.fst)) := by
  have hmnodup : ((processAll files (seedMaster pf)).map Prod.fst).Nodup := by
    apply processAll_nodup
    rw [seedMaster_keys]
    exact hnd
  refine ⟨?_, ?_, ?_⟩
  · rw [masterReport_pids, List.nodup_append]
    refine ⟨hnd, ?_, ?_⟩
    · exact ((List.filter_sublist _).map Prod.fst).nodup hmnodup
    · intro x hx hx2
      exact (mem_filter_keys pf _ x |>.mp hx2).2 hx
  · intro pid
    rw [masterReport_pids, List.mem_append, mem_filter_keys, processAll_keys,
      seedMaster_keys]
    tauto
  · exact masterReport_note pf _ types

theorem master_inventory_wit :
    ((masterReport witPortfolio (processAll witFiles (seedMaster witPortfolio))
        ["icrr"]).map MRow.pid).Nodup ∧
    (∀ pid, pid ∈ (masterReport witPortfolio
        (processAll witFiles (seedMaster witPortfolio)) ["icrr"]).map MRow.pid ↔
      (pid ∈ witPortfolio.map Prod.fst ∨ ∃ f ∈ witFiles, reportPid f.1 = some pid)) ∧
    (∀ row ∈ masterReport witPortfolio (processAll witFiles (seedMaster witPortfolio))
        ["icrr"],
      (row.note = some "Not in original portfolio" ↔
        row.pid ∉ witPortfolio.map Prod.fst)) :=
  master_inventory witPortfolio witFiles ["icrr"] (by decide)

end IBD
